import Mathlib

set_option maxRecDepth 8000

/-!
Shallow embedding of `src/tunnel_v4.py` (the tunnel-orchestration and
URL-extraction core): the per-poll URL extractor of `pingy_out`
(ANSI/control-character stripping, the three prioritized tunnel patterns,
the generic fallback pattern, de-duplication and dashboard filtering),
the polling loop, the authentication strategy selector `pingy_in`, and
the coordinator `runn` with its cleanup paths.

Strings are modelled as `List Char`.  Python `re.findall` on the patterns
used here is modelled by a left-to-right scan that, at each position,
attempts a match (greedy character-class runs with explicit backtracking
where the pattern allows it) and on success resumes after the match.
-/

namespace Tunnel

abbrev Str := List Char

/-- `startsWithL nd l`: `nd` is a leading segment of `l`. -/
def startsWithL : Str → Str → Bool
  | [], _ => true
  | _ :: _, [] => false
  | a :: as, b :: bs => a == b && startsWithL as bs

/-- Python's `nd in l` substring test. -/
def hasSubL (nd : Str) : Str → Bool
  | [] => startsWithL nd []
  | c :: cs => startsWithL nd (c :: cs) || hasSubL nd cs

/-- The character class `[a-zA-Z0-9-]` of the prioritized tunnel patterns. -/
def isAlnumDash (c : Char) : Bool := c.isAlpha || c.isDigit || c == '-'

/-- The class `[\x00-\x08\x0B\x0C\x0E-\x1F\x7F]` removed at line 95 of the
source (control characters other than tab, newline, carriage return). -/
def isCtlStrip (c : Char) : Bool :=
  c.toNat ≤ 0x08 || c.toNat == 0x0B || c.toNat == 0x0C ||
  (0x0E ≤ c.toNat && c.toNat ≤ 0x1F) || c.toNat == 0x7F

/-- The class `[@-Z\\-_]` following `\x1B` in the ANSI pattern (line 91). -/
def isAnsiSolo (c : Char) : Bool :=
  (0x40 ≤ c.toNat && c.toNat ≤ 0x5A) || (0x5C ≤ c.toNat && c.toNat ≤ 0x5F)

/-- CSI parameter bytes `[0-?]`. -/
def isCsiParam (c : Char) : Bool := 0x30 ≤ c.toNat && c.toNat ≤ 0x3F

/-- CSI intermediate bytes, the class from space to slash (0x20 to 0x2F). -/
def isCsiInter (c : Char) : Bool := 0x20 ≤ c.toNat && c.toNat ≤ 0x2F

/-- CSI final bytes `[@-~]`. -/
def isCsiFinal (c : Char) : Bool := 0x40 ≤ c.toNat && c.toNat ≤ 0x7E

/-- Given the text following an ESC byte, consume the rest of one match of
the ANSI pattern's body (a solo byte, or CSI: a bracket, then parameter
bytes, then intermediate bytes, then one final byte) and return the
remainder, or `none` if no match starts here.  The three CSI classes are
pairwise disjoint and the final class is disjoint from the starred ones,
so the greedy runs need no backtracking. -/
def ansiTail (l : Str) : Option Str :=
  match l with
  | [] => none
  | c :: cs =>
    if isAnsiSolo c then some cs
    else if c == '[' then
      match (cs.dropWhile isCsiParam).dropWhile isCsiInter with
      | [] => none
      | d :: ds => if isCsiFinal d then some ds else none
    else none

/-- `ansi_escape.sub('', content)` (line 92), fuelled for structural
recursion; fuel `≥ length` suffices since every step consumes a character. -/
def stripAnsiF : Nat → Str → Str
  | 0, l => l
  | _ + 1, [] => []
  | f + 1, c :: cs =>
    if c == '\x1B' then
      match ansiTail cs with
      | some rest => stripAnsiF f rest
      | none => c :: stripAnsiF f cs
    else c :: stripAnsiF f cs

/-- Removal of ANSI escape sequences (line 92). -/
def stripAnsi (l : Str) : Str := stripAnsiF l.length l

/-- Removal of the remaining control characters (line 95). -/
def stripCtl (l : Str) : Str := l.filter (fun c => !(isCtlStrip c))

/-- The full cleanup step of one poll (lines 91-95). -/
def cleanContent (l : Str) : Str := stripCtl (stripAnsi l)

def httpsChars : Str := "https://".data

def httpChars : Str := "http://".data

/-- `https?://` with the greedy optional `s`: the two branches are mutually
exclusive on any text, since `s ≠ :`. Returns consumed length and rest. -/
def matchScheme (l : Str) : Option (Nat × Str) :=
  if startsWithL httpsChars l then some (8, l.drop 8)
  else if startsWithL httpChars l then some (7, l.drop 7)
  else none

/-- Greedy backtracking for `[a-zA-Z0-9-]+` followed by the literal `suf`:
try run lengths `k, k-1, ..., 1` and keep the first (longest) for which
`suf` follows. -/
def backtrackSuf (suf rest : Str) : Nat → Option Nat
  | 0 => none
  | k + 1 =>
    if startsWithL suf (rest.drop (k + 1)) then some (k + 1)
    else backtrackSuf suf rest k

/-- One match attempt of a prioritized pattern
`https?://[a-zA-Z0-9-]+<suf>` at the head of `l`; returns the matched
length. -/
def matchPrioAt (suf : Str) (l : Str) : Option Nat :=
  match matchScheme l with
  | none => none
  | some (p, rest) =>
    match backtrackSuf suf rest (rest.takeWhile isAlnumDash).length with
    | some k => some (p + k + suf.length)
    | none => none

/-- `re.findall` driver: scan left to right; on a match of length `n` emit
it and resume after it (advancing at least one character, as Python does
after an empty match); on failure advance one character.  Fuel
`≥ length` suffices. -/
def findallF (m : Str → Option Nat) : Nat → Str → List Str
  | 0, _ => []
  | _ + 1, [] => []
  | f + 1, c :: cs =>
    match m (c :: cs) with
    | some n => (c :: cs).take n :: findallF m f ((c :: cs).drop (max n 1))
    | none => findallF m f cs

def findall (m : Str → Option Nat) (l : Str) : List Str := findallF m l.length l

/-- Python's `\s` on the ASCII range (the inputs scraped here are terminal
output). -/
def isPySpace (c : Char) : Bool :=
  c == ' ' || c == '\t' || c == '\n' || c == '\r' || c == '\x0B' || c == '\x0C'

/-- The class `[^\s\]]` of the generic fallback pattern (line 126). -/
def isGenClass (c : Char) : Bool := !(isPySpace c) && c != ']'

def pinggyLinkChars : Str := "pinggy.link".data

def pinggyIoChars : Str := "pinggy.io".data

/-- Greedy backtracking for `[^\s\]]+(?:pinggy\.link|pinggy\.io)`: longest
run length first, and at each length the first alternative first.  Returns
the run length and the alternative's length. -/
def backtrackAlt (rest : Str) : Nat → Option (Nat × Nat)
  | 0 => none
  | k + 1 =>
    if startsWithL pinggyLinkChars (rest.drop (k + 1)) then
      some (k + 1, pinggyLinkChars.length)
    else if startsWithL pinggyIoChars (rest.drop (k + 1)) then
      some (k + 1, pinggyIoChars.length)
    else backtrackAlt rest k

/-- One match attempt of the generic pattern
`https?://[^\s\]]+(?:pinggy\.link|pinggy\.io)[^\s\]]*` at the head of `l`. -/
def matchGenAt (l : Str) : Option Nat :=
  match matchScheme l with
  | none => none
  | some (p, rest) =>
    match backtrackAlt rest (rest.takeWhile isGenClass).length with
    | some (k, alen) =>
      some (p + k + alen + ((rest.drop (k + alen)).takeWhile isGenClass).length)
    | none => none

/-- Free tier format suffix (line 101). -/
def freeSuf : Str := ".a.free.pinggy.link".data

/-- Pro tier format suffix (line 102). -/
def proSuf : Str := ".a.pinggy.link".data

/-- Legacy format suffix (line 103). -/
def legacySuf : Str := ".pinggy.link".data

def dashChars : Str := "dashboard.pinggy.io".data

/-- `'dashboard.pinggy.io' in url` (lines 114, 129). -/
def hasDash (u : Str) : Bool := hasSubL dashChars u

def findallPrio (suf : Str) (l : Str) : List Str := findall (matchPrioAt suf) l

/-- `found_urls` (lines 106-109): matches of the three prioritized
patterns, concatenated in pattern order. -/
def tunnelMatches (cleaned : Str) : List Str :=
  findallPrio freeSuf cleaned ++ (findallPrio proSuf cleaned ++ findallPrio legacySuf cleaned)

/-- One iteration of the `unique_urls` loop (lines 112-115). -/
def uniqueStep (acc : List Str) (url : Str) : List Str :=
  if !(acc.contains url) && !(hasDash url) then acc ++ [url] else acc

/-- The `unique_urls` accumulation (lines 112-115): de-duplicate keeping
first occurrences and drop URLs containing the dashboard substring. -/
def uniqueFilter (l : List Str) : List Str := l.foldl uniqueStep []

/-- `tunnel_urls` of the fallback path (lines 126-129). -/
def fallbackMatches (cleaned : Str) : List Str :=
  (findall matchGenAt cleaned).filter (fun u => !(hasDash u))

/-- The URLs printed by one poll of `pingy_out` on the given raw sink
content (lines 89-137); `[]` means nothing was printed and the loop
continues. -/
def pollOnce (content : Str) : List Str :=
  let cleaned := cleanContent content
  let uniq := uniqueFilter (tunnelMatches cleaned)
  if uniq.isEmpty then fallbackMatches cleaned else uniq

/-- `timeout=30` (line 77). -/
def timeoutDefault : Nat := 30

/-- `time.sleep(2)` (line 82). -/
def pollInterval : Nat := 2

structure ScrapeResult where
  printedURLs : List Str
  timedOutMsg : Bool
deriving DecidableEq

/-- One poll's observation: `none` models `FileNotFoundError` on open
(caught at line 139, loop continues), `some c` a successful read of raw
content `c`. -/
def pollURLs : Option Str → List Str
  | none => []
  | some content => pollOnce content

/-- The polling loop of `pingy_out` (lines 81-145) over the sequence of
per-poll sink observations inside the timeout window: the first poll that
yields URLs prints them and returns; if none does, the timeout message is
printed.  All per-poll errors are caught inside the loop (lines 139-142),
so the function is total: no exception escapes. -/
def pingy_out : List (Option Str) → ScrapeResult
  | [] => ⟨[], true⟩
  | p :: rest =>
    match pollURLs p with
    | [] => pingy_out rest
    | u :: us => ⟨u :: us, false⟩

/-- Filesystem abstraction: existence of the scratch sink `.cache/pigy.txt`. -/
structure FS where
  sinkExists : Bool
deriving DecidableEq

/-- `os.system('rm -rf .cache/pigy.txt')` (lines 163, 165). -/
def rmSink (_ : FS) : FS := ⟨false⟩

/-- How the `try` block of `runn` (lines 148-159) exits: normal
completion, `KeyboardInterrupt`, or any other exception. -/
inductive TryExit
  | ok
  | keyboardInterrupt
  | exc
deriving DecidableEq

/-- Whether `runn` itself returns normally or re-raises. -/
inductive RunnExit
  | normal
  | raised
deriving DecidableEq

/-- The coordinator `runn` (lines 147-165): the body (spawning and joining
the three processes) transforms the filesystem and exits one of three
ways; `KeyboardInterrupt` is caught (removal at line 163) and the
`finally` removal (line 165) runs on every path, including the
propagating-exception path. -/
def runn (body : FS → FS × TryExit) (fs : FS) : FS × RunnExit :=
  match body fs with
  | (fs1, TryExit.ok) => (rmSink fs1, RunnExit.normal)
  | (fs1, TryExit.keyboardInterrupt) => (rmSink (rmSink fs1), RunnExit.normal)
  | (fs1, TryExit.exc) => (rmSink fs1, RunnExit.raised)

/-- The observable attempts of `pingy_in`: the two capability probes and
the four tunnel commands. -/
inductive Ev
  | probeSshpass
  | cmdSshpass
  | probeExpect
  | cmdExpect
  | cmdPipe
  | cmdNoAuth
deriving DecidableEq

inductive AuthResult
  | m1
  | m2
  | m3
  | m4ok
  | allFailed
deriving DecidableEq

/-- The exceptions a modelled subprocess call can raise:
`subprocess.CalledProcessError` (non-zero exit) and `FileNotFoundError`
(executable missing). -/
inductive Exc
  | calledProcessError
  | fileNotFoundError
deriving DecidableEq

/-- Environment of one `pingy_in` run: for each probe, whether the utility
is found (a failed `which` raises and is caught the same way whether it is
`CalledProcessError` or `FileNotFoundError`, so only success/failure is
recorded); for each tunnel command, whether it exits zero.  The shell
commands run through `/bin/sh` (`shell=True`), whose presence is an
ambient assumption of the whole program, so they raise only
`CalledProcessError`. -/
structure Env where
  sshpassFound : Bool
  cmdSshpassOk : Bool
  expectFound : Bool
  cmdExpectOk : Bool
  cmdPipeOk : Bool
  cmdNoAuthOk : Bool
deriving DecidableEq

deriving instance DecidableEq for Except

/-- A `which` capability probe as an effectful call. -/
def callProbe (found : Bool) : Except Exc Unit :=
  if found then Except.ok () else Except.error Exc.calledProcessError

/-- A `shell=True` tunnel command as an effectful call. -/
def callShell (ok : Bool) : Except Exc Unit :=
  if ok then Except.ok () else Except.error Exc.calledProcessError

/-- Method 4 (lines 68-75): unauthenticated fallback; both
`CalledProcessError` and any other exception are caught and logged, so it
always returns. -/
def pingyM4E (tr : List Ev) (e : Env) : Except Exc (List Ev × AuthResult) :=
  match callShell e.cmdNoAuthOk with
  | Except.ok _ => Except.ok (tr ++ [Ev.cmdNoAuth], AuthResult.m4ok)
  | Except.error _ => Except.ok (tr ++ [Ev.cmdNoAuth], AuthResult.allFailed)

/-- Method 3 (lines 60-66): credential pipe; only `CalledProcessError` is
caught (the source's `except` clause at line 65 names only that class). -/
def pingyM3E (tr : List Ev) (e : Env) : Except Exc (List Ev × AuthResult) :=
  match callShell e.cmdPipeOk with
  | Except.ok _ => Except.ok (tr ++ [Ev.cmdPipe], AuthResult.m3)
  | Except.error Exc.calledProcessError => pingyM4E (tr ++ [Ev.cmdPipe]) e
  | Except.error exc => Except.error exc

/-- Method 2 (lines 43-58): expect automation; probe then command, with
`CalledProcessError` and `FileNotFoundError` both caught (line 57). -/
def pingyM2E (tr : List Ev) (e : Env) : Except Exc (List Ev × AuthResult) :=
  match callProbe e.expectFound with
  | Except.ok _ =>
    match callShell e.cmdExpectOk with
    | Except.ok _ => Except.ok (tr ++ [Ev.probeExpect, Ev.cmdExpect], AuthResult.m2)
    | Except.error _ => pingyM3E (tr ++ [Ev.probeExpect, Ev.cmdExpect]) e
  | Except.error _ => pingyM3E (tr ++ [Ev.probeExpect]) e

/-- The authentication strategy selector `pingy_in` (lines 29-75), as an
exception-transparent embedding: an uncaught exception would surface as
`Except.error`.  Method 1 (lines 33-41): sshpass probe then command, both
exception kinds caught (line 40). -/
def pingy_inExc (e : Env) : Except Exc (List Ev × AuthResult) :=
  match callProbe e.sshpassFound with
  | Except.ok _ =>
    match callShell e.cmdSshpassOk with
    | Except.ok _ => Except.ok ([Ev.probeSshpass, Ev.cmdSshpass], AuthResult.m1)
    | Except.error _ => pingyM2E [Ev.probeSshpass, Ev.cmdSshpass] e
  | Except.error _ => pingyM2E [Ev.probeSshpass] e

def pingyM4 (tr : List Ev) (e : Env) : List Ev × AuthResult :=
  (tr ++ [Ev.cmdNoAuth], if e.cmdNoAuthOk then AuthResult.m4ok else AuthResult.allFailed)

def pingyM3 (tr : List Ev) (e : Env) : List Ev × AuthResult :=
  if e.cmdPipeOk then (tr ++ [Ev.cmdPipe], AuthResult.m3)
  else pingyM4 (tr ++ [Ev.cmdPipe]) e

def pingyM2 (tr : List Ev) (e : Env) : List Ev × AuthResult :=
  if e.expectFound then
    if e.cmdExpectOk then (tr ++ [Ev.probeExpect, Ev.cmdExpect], AuthResult.m2)
    else pingyM3 (tr ++ [Ev.probeExpect, Ev.cmdExpect]) e
  else pingyM3 (tr ++ [Ev.probeExpect]) e

/-- The selector's trace of attempts and its outcome (total companion of
`pingy_inExc`; they agree, see the C8 theorem). -/
def pingy_in (e : Env) : List Ev × AuthResult :=
  if e.sshpassFound then
    if e.cmdSshpassOk then ([Ev.probeSshpass, Ev.cmdSshpass], AuthResult.m1)
    else pingyM2 [Ev.probeSshpass, Ev.cmdSshpass] e
  else pingyM2 [Ev.probeSshpass] e

/-- The order in which the source can possibly attempt probes/commands. -/
def canonicalEvOrder : List Ev :=
  [Ev.probeSshpass, Ev.cmdSshpass, Ev.probeExpect, Ev.cmdExpect, Ev.cmdPipe, Ev.cmdNoAuth]

/-- Structural classifier of a matched URL: its scheme is stripped, then
the maximal `[a-zA-Z0-9-]` run (required nonempty), and what remains is
returned.  A match of the prioritized pattern with suffix `suf` yields
`some suf`. -/
def urlSuffix (u : Str) : Option Str :=
  match matchScheme u with
  | none => none
  | some (_, rest) =>
    let run := rest.takeWhile isAlnumDash
    if run.isEmpty then none else some (rest.drop run.length)

/-- No occurrence of the two-character sequence `.i`. -/
def noDotI : Str → Bool
  | [] => true
  | [_] => true
  | a :: b :: rest => !(a == '.' && b == 'i') && noDotI (b :: rest)

/-- A character that is neither an ANSI escape introducer nor a
non-newline control character: already-clean text in the sense of the
spec consists of such characters. -/
def isCleanChar (c : Char) : Bool :=
  (0x20 ≤ c.toNat && c.toNat != 0x7F) || c == '\n'

/-- The structural form of a match of a prioritized pattern: scheme,
nonempty `[a-zA-Z0-9-]` run, then the pattern's literal suffix. -/
def PrioShape (suf u : Str) : Prop :=
  ∃ pre run, (pre = httpsChars ∨ pre = httpChars) ∧ run ≠ [] ∧
    (∀ c ∈ run, isAlnumDash c = true) ∧ u = pre ++ (run ++ suf)

/-- Sink content holding a free-tier URL, a pro-tier URL and a dashboard
URL at once. -/
def mixedTierContent : Str :=
  "https://x.a.free.pinggy.link https://y.a.pinggy.link https://dashboard.pinggy.io/z".data

/-- The spec's worked example sink content. -/
def specExampleContent : Str :=
  "...connect to https://abc123.a.free.pinggy.link for tunnel, dashboard at https://dashboard.pinggy.io/x...".data

/-- Sink content holding the same non-prioritized URL twice. -/
def repeatedUrlContent : Str :=
  "https://a.pinggy.io https://a.pinggy.io".data

/-- A URL with a valid tunnel host whose path contains the dashboard
host as a substring. -/
def dashInPathContent : Str :=
  "https://ok.pinggy.io/dashboard.pinggy.io".data

/-- A dashboard-host URL spelled in upper case, so that it does not
contain the lowercase dashboard substring. -/
def upperDashContent : Str :=
  "https://DASHBOARD.pinggy.io/x".data

end Tunnel

namespace Tunnel

/-- C2: after the coordinator `runn` returns — whether its body completed
normally, raised `KeyboardInterrupt`, or raised any other exception — the
session's scratch sink file does not exist: the removal step executes on
every exit path. -/
theorem coordinator_cleanup (body : FS → FS × TryExit) (fs : FS) :
    ((runn body fs).1).sinkExists = false := by
  unfold runn
  obtain ⟨fs1, e⟩ := body fs
  cases e <;> rfl

/-- C5: de-duplication preserves first-seen order: for distinct
non-dashboard URLs `A` and `B`, collected match order `[B, A, B]` yields
output `[B, A]`. -/
theorem dedup_first_seen (A B : Str) (hne : A ≠ B) (hA : hasDash A = false)
    (hB : hasDash B = false) : uniqueFilter [B, A, B] = [B, A] := by
  have hAB : (A == B) = false := by
    cases h : A == B
    · rfl
    · exact absurd (by exact beq_iff_eq.mp h) hne
  have hBB : (B == B) = true := beq_iff_eq.mpr rfl
  simp [uniqueFilter, uniqueStep, List.foldl, List.contains, List.elem, hA, hB, hAB, hBB,
    hne, Ne.symm hne]

theorem dedup_first_seen_witness :
    uniqueFilter ["https://b.a.pinggy.link".data, "https://a.a.pinggy.link".data,
      "https://b.a.pinggy.link".data] =
      ["https://b.a.pinggy.link".data, "https://a.a.pinggy.link".data] :=
  dedup_first_seen "https://a.a.pinggy.link".data "https://b.a.pinggy.link".data
    (by decide) (by decide) (by decide)

/-- C6: if every poll of the scraper inside the timeout window (default
`timeoutDefault = 30` time-units, one poll each `pollInterval = 2`) finds
no matching URL, the scraper prints the timeout message, outputs no URLs
and terminates normally (its per-poll errors are caught, so nothing
escapes: `pingy_out` is a total function). -/
theorem scraper_timeout (polls : List (Option Str))
    (h : ∀ p ∈ polls, pollURLs p = []) :
    pingy_out polls = ⟨[], true⟩ ∧ timeoutDefault = 30 ∧ pollInterval = 2 := by
  refine ⟨?_, rfl, rfl⟩
  induction polls with
  | nil => rfl
  | cons p rest ih =>
    have hp : pollURLs p = [] := h p (by simp)
    have hrest : ∀ q ∈ rest, pollURLs q = [] := fun q hq => h q (by simp [hq])
    simpa [pingy_out, hp] using ih hrest

theorem scraper_timeout_witness :
    pingy_out [none, some "ssh tunnel starting up".data] = ⟨[], true⟩ ∧
      timeoutDefault = 30 ∧ pollInterval = 2 :=
  scraper_timeout [none, some "ssh tunnel starting up".data] (by decide)

/-- C3: the authentication selector attempts the mechanisms strictly in
priority order (its trace is a sublist of the canonical order), stopping
at the first success; when mechanism 1's capability probe fails, the
sshpass tunnel command is never invoked and the selector falls through to
mechanism 2's probe — probe failure is not an error. -/
theorem auth_priority_order (e : Env) :
    List.Sublist (pingy_in e).1 canonicalEvOrder ∧
    (e.sshpassFound = false →
      Ev.cmdSshpass ∉ (pingy_in e).1 ∧ Ev.probeExpect ∈ (pingy_in e).1) ∧
    ((pingy_in e).2 = AuthResult.m1 →
      (pingy_in e).1 = [Ev.probeSshpass, Ev.cmdSshpass]) ∧
    ((pingy_in e).2 = AuthResult.m2 →
      Ev.cmdPipe ∉ (pingy_in e).1 ∧ Ev.cmdNoAuth ∉ (pingy_in e).1) ∧
    ((pingy_in e).2 = AuthResult.m3 → Ev.cmdNoAuth ∉ (pingy_in e).1) := by
  obtain ⟨a, b, c, d, f, g⟩ := e
  cases a <;> cases b <;> cases c <;> cases d <;> cases f <;> cases g <;> decide

theorem auth_priority_order_witness :
    Ev.cmdSshpass ∉ (pingy_in ⟨false, true, true, true, true, true⟩).1 ∧
      Ev.probeExpect ∈ (pingy_in ⟨false, true, true, true, true, true⟩).1 :=
  (auth_priority_order ⟨false, true, true, true, true, true⟩).2.1 rfl

/-- C8: the selector never lets an exception escape (`pingy_inExc` always
returns `Except.ok`); the final unauthenticated fallback is recorded as
success exactly when it was attempted and its process call raised no
process error; and no mechanism is ever retried (the trace has no
duplicate attempts). -/
theorem auth_final_fallback (e : Env) :
    pingy_inExc e = Except.ok (pingy_in e) ∧
    ((pingy_in e).2 = AuthResult.m4ok ↔
      Ev.cmdNoAuth ∈ (pingy_in e).1 ∧ e.cmdNoAuthOk = true) ∧
    (pingy_in e).1.Nodup := by
  obtain ⟨a, b, c, d, f, g⟩ := e
  cases a <;> cases b <;> cases c <;> cases d <;> cases f <;> cases g <;> decide

theorem auth_final_fallback_witness :
    (pingy_in ⟨false, false, false, false, false, true⟩).2 = AuthResult.m4ok :=
  (auth_final_fallback ⟨false, false, false, false, false, true⟩).2.1.mpr
    ⟨by decide, rfl⟩

end Tunnel

namespace Tunnel

theorem stripAnsiF_no_esc (f : Nat) (m : Str) (h : forall c, c ∈ m → (c == '\x1B') = false) :
    stripAnsiF f m = m := by
  induction f generalizing m with
  | zero => rfl
  | succ f ih =>
    cases m with
    | nil => rfl
    | cons c cs =>
      have hc : (c == '\x1B') = false := h c (by simp)
      simp only [stripAnsiF, hc, Bool.false_eq_true, if_false, List.cons.injEq, true_and]
      exact ih cs (fun d hd => h d (by simp [hd]))

theorem mem_cleanContent_not_ctl (l : Str) (c : Char) (h : c ∈ cleanContent l) :
    isCtlStrip c = false := by
  unfold cleanContent stripCtl at h
  have h2 := (List.mem_filter.mp h).2
  simpa using h2

theorem cleanContent_idem (l : Str) : cleanContent (cleanContent l) = cleanContent l := by
  have h1 : stripAnsi (cleanContent l) = cleanContent l := by
    unfold stripAnsi
    apply stripAnsiF_no_esc
    intro c hc
    have hctl := mem_cleanContent_not_ctl l c hc
    cases he : c == '\x1B' with
    | false => rfl
    | true =>
      have hce : c = '\x1B' := beq_iff_eq.mp he
      subst hce
      exact absurd hctl (by decide)
  show stripCtl (stripAnsi (cleanContent l)) = cleanContent l
  rw [h1]
  apply List.filter_eq_self.mpr
  intro a ha
  simp [mem_cleanContent_not_ctl l a ha]

theorem isCleanChar_not_esc (c : Char) (h : isCleanChar c = true) :
    (c == '\x1B') = false := by
  cases he : c == '\x1B' with
  | false => rfl
  | true =>
    have hce : c = '\x1B' := beq_iff_eq.mp he
    subst hce
    exact absurd h (by decide)

theorem isCleanChar_not_ctl (c : Char) (h : isCleanChar c = true) :
    isCtlStrip c = false := by
  simp [isCleanChar] at h
  rcases h with h1 | h3
  · simp [isCtlStrip]
    omega
  · subst h3
    decide

/-- C7: the escape-sequence/control-character stripping step is
idempotent: stripping twice equals stripping once on every input; and on
already-clean text (no ANSI escapes, no non-newline control characters)
stripping returns the text unchanged. -/
theorem strip_idempotent (l : Str) :
    cleanContent (cleanContent l) = cleanContent l ∧
    (l.all isCleanChar = true → cleanContent l = l) := by
  refine ⟨cleanContent_idem l, fun h => ?_⟩
  have hall : forall c, c ∈ l → isCleanChar c = true := by
    intro c hc
    exact List.all_eq_true.mp h c hc
  have h1 : stripAnsi l = l :=
    stripAnsiF_no_esc l.length l (fun c hc => isCleanChar_not_esc c (hall c hc))
  unfold cleanContent
  rw [h1]
  apply List.filter_eq_self.mpr
  intro a ha
  simp [isCleanChar_not_ctl a (hall a ha)]

theorem strip_idempotent_witness :
    (cleanContent (cleanContent "Tunnel ready: https://x.a.free.pinggy.link\n".data) =
      cleanContent "Tunnel ready: https://x.a.free.pinggy.link\n".data) ∧
    cleanContent "Tunnel ready: https://x.a.free.pinggy.link\n".data =
      "Tunnel ready: https://x.a.free.pinggy.link\n".data :=
  ⟨(strip_idempotent "Tunnel ready: https://x.a.free.pinggy.link\n".data).1,
   (strip_idempotent "Tunnel ready: https://x.a.free.pinggy.link\n".data).2 (by decide)⟩

end Tunnel

namespace Tunnel

theorem startsWithL_iff (nd : Str) : ∀ l : Str, startsWithL nd l = true ↔ ∃ t, l = nd ++ t := by
  induction nd with
  | nil =>
    intro l
    simp [startsWithL]
  | cons a as ih =>
    intro l
    cases l with
    | nil =>
      simp [startsWithL]
    | cons b bs =>
      simp only [startsWithL, Bool.and_eq_true, beq_iff_eq, ih bs]
      constructor
      · rintro ⟨rfl, t, rfl⟩
        exact ⟨t, rfl⟩
      · rintro ⟨t, ht⟩
        rw [List.cons_append] at ht
        cases ht
        exact ⟨rfl, t, rfl⟩

theorem hasSubL_iff (nd : Str) : ∀ l : Str, hasSubL nd l = true ↔ ∃ s t, l = s ++ nd ++ t := by
  intro l
  induction l with
  | nil =>
    simp only [hasSubL, startsWithL_iff]
    constructor
    · rintro ⟨t, ht⟩
      exact ⟨[], t, by simpa using ht⟩
    · rintro ⟨s, t, ht⟩
      rcases List.append_eq_nil.mp (Eq.symm ht) with ⟨hs, h2⟩
      rcases List.append_eq_nil.mp hs with ⟨hn, htn⟩
      exact ⟨[], by simp [htn]⟩
  | cons c cs ih =>
    simp only [hasSubL, Bool.or_eq_true, startsWithL_iff, ih]
    constructor
    · rintro (⟨t, ht⟩ | ⟨s, t, ht⟩)
      · exact ⟨[], t, by simpa using ht⟩
      · exact ⟨c :: s, t, by simp [ht]⟩
    · rintro ⟨s, t, ht⟩
      cases s with
      | nil =>
        exact Or.inl ⟨t, by simpa using ht⟩
      | cons x s2 =>
        rw [List.cons_append, List.cons_append] at ht
        cases ht
        exact Or.inr ⟨s2, t, by simp⟩

theorem noDotI_append_di (s t : Str) : noDotI (s ++ '.' :: 'i' :: t) = false := by
  induction s with
  | nil => simp [noDotI]
  | cons x s ih =>
    cases s with
    | nil => simp [noDotI]
    | cons y s2 =>
      rw [List.cons_append]
      rw [show (y :: s2) ++ '.' :: 'i' :: t = y :: (s2 ++ '.' :: 'i' :: t) from rfl] at ih ⊢
      simp [noDotI, ih]

theorem noDotI_left (xs ys : Str) (h : ∀ c ∈ xs, (c == '.') = false) :
    noDotI (xs ++ ys) = noDotI ys := by
  induction xs with
  | nil => rfl
  | cons x xs ih =>
    have hx : (x == '.') = false := h x (by simp)
    have htail : ∀ c ∈ xs, (c == '.') = false := fun c hc => h c (by simp [hc])
    cases xs with
    | nil =>
      cases ys with
      | nil => simp [noDotI]
      | cons z zs => simp [noDotI, hx]
    | cons y xs2 =>
      rw [List.cons_append]
      rw [show (y :: xs2) ++ ys = y :: (xs2 ++ ys) from rfl] at ih ⊢
      simp [noDotI, hx, ih htail]

theorem isAlnumDash_not_dot (c : Char) (h : isAlnumDash c = true) : (c == '.') = false := by
  cases hc : c == '.' with
  | false => rfl
  | true =>
    have : c = '.' := beq_iff_eq.mp hc
    subst this
    exact absurd h (by decide)

theorem prio_shape_no_dash (pre run suf : Str)
    (hpre : pre = httpsChars ∨ pre = httpChars)
    (hrun : ∀ c ∈ run, isAlnumDash c = true)
    (hsuf : suf = freeSuf ∨ suf = proSuf ∨ suf = legacySuf) :
    hasDash (pre ++ (run ++ suf)) = false := by
  have hnodot : ∀ c ∈ pre ++ run, (c == '.') = false := by
    intro c hc
    rcases List.mem_append.mp hc with hcp | hcr
    · rcases hpre with rfl | rfl
      · rw [show httpsChars = ['h','t','t','p','s',':','/','/'] from rfl] at hcp
        simp only [List.mem_cons, List.not_mem_nil, or_false] at hcp
        rcases hcp with rfl | rfl | rfl | rfl | rfl | rfl | rfl | rfl <;> rfl
      · rw [show httpChars = ['h','t','t','p',':','/','/'] from rfl] at hcp
        simp only [List.mem_cons, List.not_mem_nil, or_false] at hcp
        rcases hcp with rfl | rfl | rfl | rfl | rfl | rfl | rfl <;> rfl
    · exact isAlnumDash_not_dot c (hrun c hcr)
  have hclean : noDotI (pre ++ (run ++ suf)) = true := by
    rw [← List.append_assoc, noDotI_left (pre ++ run) suf hnodot]
    rcases hsuf with rfl | rfl | rfl <;> decide
  cases hd : hasDash (pre ++ (run ++ suf)) with
  | false => rfl
  | true =>
    exfalso
    rcases (hasSubL_iff dashChars (pre ++ (run ++ suf))).mp hd with ⟨s, t, ht⟩
    have hdi : hasSubL ('.' :: 'i' :: []) dashChars = true := by decide
    rcases (hasSubL_iff ('.' :: 'i' :: []) dashChars).mp hdi with ⟨s2, t2, ht2⟩
    have hu : pre ++ (run ++ suf) = (s ++ s2) ++ '.' :: 'i' :: (t2 ++ t) := by
      rw [ht, ht2]
      simp
    have := noDotI_append_di (s ++ s2) (t2 ++ t)
    rw [← hu] at this
    rw [hclean] at this
    exact Bool.true_eq_false.mp this

end Tunnel

namespace Tunnel

theorem takeWhile_length_le (p : Char → Bool) (l : Str) :
    (l.takeWhile p).length ≤ l.length := by
  induction l with
  | nil => simp
  | cons c cs ih =>
    by_cases h : p c = true
    · rw [List.takeWhile_cons_of_pos h]
      simpa using ih
    · rw [List.takeWhile_cons_of_neg (by simp [h])]
      simp

theorem matchScheme_eq_some (l : Str) (p : Nat) (rest : Str)
    (h : matchScheme l = some (p, rest)) :
    ∃ pre, (pre = httpsChars ∨ pre = httpChars) ∧ l = pre ++ rest ∧ p = pre.length := by
  unfold matchScheme at h
  by_cases h1 : startsWithL httpsChars l = true
  · rw [if_pos h1] at h
    rcases (startsWithL_iff httpsChars l).mp h1 with ⟨t, rfl⟩
    cases h
    refine ⟨httpsChars, Or.inl rfl, ?_, rfl⟩
    rw [List.drop_left' (by rfl)]
  · rw [if_neg h1] at h
    by_cases h2 : startsWithL httpChars l = true
    · rw [if_pos h2] at h
      rcases (startsWithL_iff httpChars l).mp h2 with ⟨t, rfl⟩
      cases h
      refine ⟨httpChars, Or.inr rfl, ?_, rfl⟩
      rw [List.drop_left' (by rfl)]
    · rw [if_neg h2] at h
      cases h

theorem backtrackSuf_eq_some (suf rest : Str) (k j : Nat)
    (h : backtrackSuf suf rest k = some j) :
    1 ≤ j ∧ j ≤ k ∧ startsWithL suf (rest.drop j) = true := by
  induction k with
  | zero => exact absurd h (by simp [backtrackSuf])
  | succ k ih =>
    unfold backtrackSuf at h
    by_cases hs : startsWithL suf (rest.drop (k + 1)) = true
    · rw [if_pos hs] at h
      cases h
      exact ⟨by omega, Nat.le_refl _, hs⟩
    · rw [if_neg hs] at h
      rcases ih h with ⟨h1, h2, h3⟩
      exact ⟨h1, by omega, h3⟩

theorem take_of_takeWhile_all {p : Char → Bool} (l : Str) (j : Nat)
    (hj : j ≤ (l.takeWhile p).length) : ∀ c ∈ l.take j, p c = true := by
  intro c hc
  have hpre : ∃ t, l = l.takeWhile p ++ t :=
    ⟨l.dropWhile p, (List.takeWhile_append_dropWhile p l).symm⟩
  rcases hpre with ⟨t, ht⟩
  have : l.take j = (l.takeWhile p).take j := by
    conv_lhs => rw [ht]
    rw [List.take_append_eq_append_take, Nat.sub_eq_zero_of_le hj, List.take_zero,
      List.append_nil]
  rw [this] at hc
  have hmem : c ∈ l.takeWhile p := List.take_subset j _ hc
  exact List.mem_takeWhile_imp hmem

theorem matchPrioAt_eq_some (suf l : Str) (n : Nat) (h : matchPrioAt suf l = some n) :
    PrioShape suf (l.take n) := by
  unfold matchPrioAt at h
  cases hms : matchScheme l with
  | none =>
    rw [hms] at h
    cases h
  | some pr =>
    obtain ⟨p, rest⟩ := pr
    rw [hms] at h
    dsimp only at h
    rcases matchScheme_eq_some l p rest hms with ⟨pre, hpre, rfl, rfl⟩
    cases hbt : backtrackSuf suf rest (rest.takeWhile isAlnumDash).length with
    | none =>
      rw [hbt] at h
      cases h
    | some j =>
      rw [hbt] at h
      dsimp only at h
      cases h
      rcases backtrackSuf_eq_some suf rest _ j hbt with ⟨hj1, hj2, hj3⟩
      rcases (startsWithL_iff suf (rest.drop j)).mp hj3 with ⟨t, hdrop⟩
      have hjlen : j ≤ rest.length := by
        have := takeWhile_length_le isAlnumDash rest
        omega
      have hsplit : rest = rest.take j ++ (suf ++ t) := by
        rw [← hdrop, List.take_append_drop]
      have hrunlen : (rest.take j).length = j := by
        rw [List.length_take]
        omega
      refine ⟨pre, rest.take j, hpre, ?_, take_of_takeWhile_all rest j hj2, ?_⟩
      · intro hnil
        rw [hnil] at hrunlen
        simp at hrunlen
        omega
      · have hassoc : pre ++ rest = (pre ++ (rest.take j ++ suf)) ++ t := by
          conv_lhs => rw [hsplit]
          simp [List.append_assoc]
        have hlen2 : (pre ++ (rest.take j ++ suf)).length =
            pre.length + j + suf.length := by
          simp only [List.length_append, hrunlen]
          omega
        rw [hassoc, List.take_left' hlen2]

theorem findallF_mem (m : Str → Option Nat) (P : Str → Prop)
    (hm : ∀ l n, m l = some n → P (l.take n)) :
    ∀ f l u, u ∈ findallF m f l → P u := by
  intro f
  induction f with
  | zero =>
    intro l u h
    exact absurd h (by simp [findallF])
  | succ f ih =>
    intro l u h
    cases l with
    | nil => exact absurd h (by simp [findallF])
    | cons c cs =>
      unfold findallF at h
      cases hmc : m (c :: cs) with
      | some n =>
        rw [hmc] at h
        rcases List.mem_cons.mp h with rfl | h2
        · exact hm _ _ hmc
        · exact ih _ _ h2
      | none =>
        rw [hmc] at h
        exact ih _ _ h

theorem findallPrio_shape (suf l u : Str) (hu : u ∈ findallPrio suf l) :
    PrioShape suf u :=
  findallF_mem (matchPrioAt suf) (PrioShape suf) (matchPrioAt_eq_some suf) l.length l u hu

end Tunnel

namespace Tunnel

theorem takeWhile_append_all (p : Char → Bool) (xs ys : Str)
    (h : ∀ c ∈ xs, p c = true) :
    (xs ++ ys).takeWhile p = xs ++ ys.takeWhile p := by
  induction xs with
  | nil => rfl
  | cons x xs ih =>
    have hx : p x = true := h x (by simp)
    rw [List.cons_append, List.takeWhile_cons_of_pos hx,
      ih (fun c hc => h c (by simp [hc])), List.cons_append]

theorem startsWithL_https_of_http (run suf : Str) :
    startsWithL httpsChars (httpChars ++ (run ++ suf)) = false := rfl

theorem prioShape_urlSuffix (suf u : Str)
    (hsuf : suf = freeSuf ∨ suf = proSuf ∨ suf = legacySuf)
    (h : PrioShape suf u) : urlSuffix u = some suf := by
  rcases h with ⟨pre, run, hpre, hne, hrun, rfl⟩
  have hsufhead : suf.takeWhile isAlnumDash = [] := by
    rcases hsuf with rfl | rfl | rfl <;> rfl
  have hrest : (run ++ suf).takeWhile isAlnumDash = run := by
    rw [takeWhile_append_all isAlnumDash run suf hrun, hsufhead, List.append_nil]
  have hemp : ¬(run.isEmpty = true) := by simpa using hne
  rcases hpre with rfl | rfl
  · have h1 : startsWithL httpsChars (httpsChars ++ (run ++ suf)) = true :=
      (startsWithL_iff httpsChars _).mpr ⟨run ++ suf, rfl⟩
    unfold urlSuffix matchScheme
    rw [if_pos h1]
    dsimp only
    rw [List.drop_left' (by rfl), hrest, if_neg hemp, List.drop_left]
  · have h1 : startsWithL httpsChars (httpChars ++ (run ++ suf)) = false :=
      startsWithL_https_of_http run suf
    have h2 : startsWithL httpChars (httpChars ++ (run ++ suf)) = true :=
      (startsWithL_iff httpChars _).mpr ⟨run ++ suf, rfl⟩
    unfold urlSuffix matchScheme
    rw [if_neg (by simp [h1]), if_pos h2]
    dsimp only
    rw [List.drop_left' (by rfl), hrest, if_neg hemp, List.drop_left]

theorem foldl_uniqueStep_grows (l : List Str) :
    ∀ a : List Str, ∃ t, l.foldl uniqueStep a = a ++ t := by
  induction l with
  | nil => exact fun a => ⟨[], by simp⟩
  | cons u l ih =>
    intro a
    rw [List.foldl_cons]
    by_cases hc : (!(a.contains u) && !(hasDash u)) = true
    · rw [show uniqueStep a u = a ++ [u] from by unfold uniqueStep; rw [if_pos hc]]
      rcases ih (a ++ [u]) with ⟨t, ht⟩
      refine ⟨u :: t, ?_⟩
      rw [ht, List.append_assoc]
      rfl
    · rw [show uniqueStep a u = a from by unfold uniqueStep; rw [if_neg hc]]
      exact ih a

theorem foldl_uniqueStep_mem (l : List Str) :
    ∀ a : List Str, ∀ u ∈ l.foldl uniqueStep a,
      u ∈ a ∨ (u ∈ l ∧ hasDash u = false) := by
  induction l with
  | nil =>
    intro a u hu
    exact Or.inl hu
  | cons v l ih =>
    intro a u hu
    rw [List.foldl_cons] at hu
    rcases ih (uniqueStep a v) u hu with hmem | ⟨hl, hd⟩
    · by_cases hc : (!(a.contains v) && !(hasDash v)) = true
      · rw [show uniqueStep a v = a ++ [v] from by unfold uniqueStep; rw [if_pos hc]] at hmem
        have hcp : v ∉ a ∧ hasDash v = false := by simpa using hc
        rcases List.mem_append.mp hmem with h1 | h2
        · exact Or.inl h1
        · have huv : u = v := by simpa using h2
          subst huv
          exact Or.inr ⟨by simp, hcp.2⟩
      · rw [show uniqueStep a v = a from by unfold uniqueStep; rw [if_neg hc]] at hmem
        exact Or.inl hmem
    · exact Or.inr ⟨by simp [hl], hd⟩

theorem foldl_uniqueStep_nodup (l : List Str) :
    ∀ a : List Str, a.Nodup → (l.foldl uniqueStep a).Nodup := by
  induction l with
  | nil => exact fun a ha => ha
  | cons u l ih =>
    intro a ha
    rw [List.foldl_cons]
    apply ih
    by_cases hc : (!(a.contains u) && !(hasDash u)) = true
    · rw [show uniqueStep a u = a ++ [u] from by unfold uniqueStep; rw [if_pos hc]]
      have hcp : u ∉ a ∧ hasDash u = false := by simpa using hc
      simp [List.nodup_append, ha, hcp.1]
    · rw [show uniqueStep a u = a from by unfold uniqueStep; rw [if_neg hc]]
      exact ha

theorem foldl_uniqueStep_shift (l : List Str) :
    ∀ a b : List Str, (∀ u ∈ l, u ∉ a) →
      l.foldl uniqueStep (a ++ b) = a ++ l.foldl uniqueStep b := by
  induction l with
  | nil =>
    intro a b _
    simp
  | cons u l ih =>
    intro a b h
    have hu : u ∉ a := h u (by simp)
    have htail : ∀ v ∈ l, v ∉ a := fun v hv => h v (by simp [hv])
    rw [List.foldl_cons, List.foldl_cons]
    have hcontains : (a ++ b).contains u = b.contains u := by
      cases hcb : b.contains u with
      | true =>
        have hub : u ∈ b := by simpa using hcb
        simp [hub]
      | false =>
        have hub : u ∉ b := by simpa using hcb
        simp [hu, hub]
    have hstep : uniqueStep (a ++ b) u = a ++ uniqueStep b u := by
      unfold uniqueStep
      rw [hcontains]
      by_cases hc : (!(b.contains u) && !(hasDash u)) = true
      · rw [if_pos hc, if_pos hc, List.append_assoc]
      · rw [if_neg hc, if_neg hc]
    rw [hstep]
    exact ih a (uniqueStep b u) htail

theorem uniqueFilter_sub (l : List Str) (u : Str) (hu : u ∈ uniqueFilter l) :
    u ∈ l ∧ hasDash u = false := by
  rcases foldl_uniqueStep_mem l [] u hu with h1 | h2
  · exact absurd h1 (by simp)
  · exact h2

theorem uniqueFilter_nodup (l : List Str) : (uniqueFilter l).Nodup :=
  foldl_uniqueStep_nodup l [] List.nodup_nil

theorem uniqueFilter_append (xs ys : List Str)
    (h : ∀ u ∈ ys, u ∉ uniqueFilter xs) :
    uniqueFilter (xs ++ ys) = uniqueFilter xs ++ uniqueFilter ys := by
  unfold uniqueFilter
  rw [List.foldl_append]
  have := foldl_uniqueStep_shift ys (xs.foldl uniqueStep []) [] h
  simpa using this

end Tunnel

namespace Tunnel

theorem mem_findallPrio_urlSuffix (suf cl u : Str)
    (hsuf : suf = freeSuf ∨ suf = proSuf ∨ suf = legacySuf)
    (hu : u ∈ findallPrio suf cl) : urlSuffix u = some suf :=
  prioShape_urlSuffix suf u hsuf (findallPrio_shape suf cl u hu)

theorem mem_findallPrio_no_dash (suf cl u : Str)
    (hsuf : suf = freeSuf ∨ suf = proSuf ∨ suf = legacySuf)
    (hu : u ∈ findallPrio suf cl) : hasDash u = false := by
  rcases findallPrio_shape suf cl u hu with ⟨pre, run, hpre, hne, hrun, rfl⟩
  exact prio_shape_no_dash pre run suf hpre hrun hsuf

theorem findallPrio_not_mem_uniqueFilter (s1 s2 cl : Str)
    (h1 : s1 = freeSuf ∨ s1 = proSuf ∨ s1 = legacySuf)
    (h2 : s2 = freeSuf ∨ s2 = proSuf ∨ s2 = legacySuf)
    (hne : s1 ≠ s2) :
    ∀ u ∈ findallPrio s2 cl, u ∉ uniqueFilter (findallPrio s1 cl) := by
  intro u hu2 hu1
  have e1 := mem_findallPrio_urlSuffix s1 cl u h1 (uniqueFilter_sub _ u hu1).1
  have e2 := mem_findallPrio_urlSuffix s2 cl u h2 hu2
  rw [e1] at e2
  exact hne (Option.some_inj.mp e2)

theorem pollOnce_of_prio_ne_nil (c : Str)
    (h : uniqueFilter (tunnelMatches (cleanContent c)) ≠ []) :
    pollOnce c = uniqueFilter (tunnelMatches (cleanContent c)) := by
  show (if (uniqueFilter (tunnelMatches (cleanContent c))).isEmpty = true
      then fallbackMatches (cleanContent c)
      else uniqueFilter (tunnelMatches (cleanContent c))) =
    uniqueFilter (tunnelMatches (cleanContent c))
  rw [if_neg (by simpa using h)]

theorem uniqueFilter_ne_nil (u0 : Str) (us : List Str) (hnd : hasDash u0 = false) :
    uniqueFilter (u0 :: us) ≠ [] := by
  unfold uniqueFilter
  rw [List.foldl_cons]
  rw [show uniqueStep [] u0 = [u0] from by unfold uniqueStep; simp [hnd]]
  rcases foldl_uniqueStep_grows us [u0] with ⟨t, ht⟩
  rw [ht]
  simp

/-- C10: on the prioritized-pattern path the extractor's output is grouped
by pattern priority, not by position in the sink content: the de-duplicated
output equals the concatenation of the free-tier group, then the pro-tier
group, then the legacy group (each group in scan order), every member of a
group being a match of that group's pattern shape; and when this output is
nonempty it is exactly what the poll prints. -/
theorem prioritized_output_grouped (c : Str) :
    uniqueFilter (tunnelMatches (cleanContent c)) =
      uniqueFilter (findallPrio freeSuf (cleanContent c)) ++
      (uniqueFilter (findallPrio proSuf (cleanContent c)) ++
        uniqueFilter (findallPrio legacySuf (cleanContent c))) ∧
    (∀ u ∈ uniqueFilter (findallPrio freeSuf (cleanContent c)),
      urlSuffix u = some freeSuf) ∧
    (∀ u ∈ uniqueFilter (findallPrio proSuf (cleanContent c)),
      urlSuffix u = some proSuf) ∧
    (∀ u ∈ uniqueFilter (findallPrio legacySuf (cleanContent c)),
      urlSuffix u = some legacySuf) ∧
    (uniqueFilter (tunnelMatches (cleanContent c)) ≠ [] →
      pollOnce c = uniqueFilter (tunnelMatches (cleanContent c))) := by
  refine ⟨?_, ?_, ?_, ?_, pollOnce_of_prio_ne_nil c⟩
  · unfold tunnelMatches
    rw [uniqueFilter_append]
    · rw [uniqueFilter_append]
      exact findallPrio_not_mem_uniqueFilter proSuf legacySuf (cleanContent c)
        (Or.inr (Or.inl rfl)) (Or.inr (Or.inr rfl)) (by decide)
    · intro u hu
      rcases List.mem_append.mp hu with h2 | h3
      · exact findallPrio_not_mem_uniqueFilter freeSuf proSuf (cleanContent c)
          (Or.inl rfl) (Or.inr (Or.inl rfl)) (by decide) u h2
      · exact findallPrio_not_mem_uniqueFilter freeSuf legacySuf (cleanContent c)
          (Or.inl rfl) (Or.inr (Or.inr rfl)) (by decide) u h3
  · exact fun u hu => mem_findallPrio_urlSuffix freeSuf (cleanContent c) u
      (Or.inl rfl) (uniqueFilter_sub _ u hu).1
  · exact fun u hu => mem_findallPrio_urlSuffix proSuf (cleanContent c) u
      (Or.inr (Or.inl rfl)) (uniqueFilter_sub _ u hu).1
  · exact fun u hu => mem_findallPrio_urlSuffix legacySuf (cleanContent c) u
      (Or.inr (Or.inr rfl)) (uniqueFilter_sub _ u hu).1

theorem prioritized_output_grouped_witness :
    pollOnce specExampleContent =
      uniqueFilter (tunnelMatches (cleanContent specExampleContent)) :=
  (prioritized_output_grouped specExampleContent).2.2.2.2 (by decide)

/-- C1 counterexample: `mixedTierContent` contains a free-tier URL and a
dashboard URL, yet one poll of the extractor also outputs a pro-tier URL,
so the output is not only the free-tier URL(s). -/
theorem extractor_free_tier_counterexample :
    (findallPrio freeSuf (cleanContent mixedTierContent)).length = 1 ∧
    hasSubL "https://dashboard.pinggy.io".data (cleanContent mixedTierContent) = true ∧
    pollOnce mixedTierContent =
      ["https://x.a.free.pinggy.link".data, "https://y.a.pinggy.link".data] ∧
    urlSuffix "https://y.a.pinggy.link".data ≠ some freeSuf := by
  decide

/-- C1 (amended): for every sink content containing at least one free-tier
URL match and a dashboard URL, the poll's output starts with the distinct
free-tier URL(s) (they are a nonempty leading segment of the output), every
output URL is a match of one of the three tunnel patterns, and no output
URL contains the dashboard substring; URLs of the other tunnel formats may
follow the free-tier group. -/
theorem extractor_free_tier_amended (c : Str)
    (hfree : findallPrio freeSuf (cleanContent c) ≠ [])
    (_hdash : hasSubL "https://dashboard.pinggy.io".data (cleanContent c) = true) :
    ∃ rest,
      pollOnce c = uniqueFilter (findallPrio freeSuf (cleanContent c)) ++ rest ∧
      uniqueFilter (findallPrio freeSuf (cleanContent c)) ≠ [] ∧
      (∀ u ∈ pollOnce c, hasDash u = false ∧
        (urlSuffix u = some freeSuf ∨ urlSuffix u = some proSuf ∨
          urlSuffix u = some legacySuf)) := by
  have hufne : uniqueFilter (findallPrio freeSuf (cleanContent c)) ≠ [] := by
    cases hf : findallPrio freeSuf (cleanContent c) with
    | nil => exact absurd hf hfree
    | cons u0 us =>
      apply uniqueFilter_ne_nil
      exact mem_findallPrio_no_dash freeSuf (cleanContent c) u0 (Or.inl rfl)
        (by rw [hf]; simp)
  have hsplit : ∃ t, uniqueFilter (tunnelMatches (cleanContent c)) =
      uniqueFilter (findallPrio freeSuf (cleanContent c)) ++ t := by
    unfold tunnelMatches uniqueFilter
    rw [List.foldl_append]
    exact foldl_uniqueStep_grows _ _
  rcases hsplit with ⟨t, ht⟩
  have huniqne : uniqueFilter (tunnelMatches (cleanContent c)) ≠ [] := by
    rw [ht]
    intro hnil
    exact hufne (List.append_eq_nil.mp hnil).1
  have hpoll : pollOnce c = uniqueFilter (tunnelMatches (cleanContent c)) :=
    pollOnce_of_prio_ne_nil c huniqne
  refine ⟨t, by rw [hpoll, ht], hufne, ?_⟩
  intro u hu
  rw [hpoll] at hu
  rcases uniqueFilter_sub _ u hu with ⟨hmem, hnd⟩
  refine ⟨hnd, ?_⟩
  rcases List.mem_append.mp hmem with h1 | h23
  · exact Or.inl (mem_findallPrio_urlSuffix freeSuf (cleanContent c) u (Or.inl rfl) h1)
  · rcases List.mem_append.mp h23 with h2 | h3
    · exact Or.inr (Or.inl (mem_findallPrio_urlSuffix proSuf (cleanContent c) u
        (Or.inr (Or.inl rfl)) h2))
    · exact Or.inr (Or.inr (mem_findallPrio_urlSuffix legacySuf (cleanContent c) u
        (Or.inr (Or.inr rfl)) h3))

theorem extractor_free_tier_amended_witness :
    ∃ rest,
      pollOnce specExampleContent =
        uniqueFilter (findallPrio freeSuf (cleanContent specExampleContent)) ++ rest ∧
      uniqueFilter (findallPrio freeSuf (cleanContent specExampleContent)) ≠ [] ∧
      (∀ u ∈ pollOnce specExampleContent, hasDash u = false ∧
        (urlSuffix u = some freeSuf ∨ urlSuffix u = some proSuf ∨
          urlSuffix u = some legacySuf)) :=
  extractor_free_tier_amended specExampleContent (by decide) (by decide)

/-- C4 counterexample: on the generic-pattern fallback path the extractor
prints duplicates: a sink content holding the same non-prioritized URL
twice yields an output list with that URL twice. -/
theorem extractor_set_semantics_counterexample :
    pollOnce repeatedUrlContent =
      ["https://a.pinggy.io".data, "https://a.pinggy.io".data] ∧
    ¬ (pollOnce repeatedUrlContent).Nodup := by
  decide

/-- C4 (amended): the prioritized-path output contains no duplicates and
is in discovery order; the fallback-path output preserves the scanner's
discovery order (it is the scan-order match list, dashboard-filtered) but
is not de-duplicated; one poll prints the prioritized output when it is
nonempty and the fallback output otherwise. -/
theorem extractor_set_semantics_amended (c : Str) :
    (uniqueFilter (tunnelMatches (cleanContent c))).Nodup ∧
    List.Sublist (fallbackMatches (cleanContent c))
      (findall matchGenAt (cleanContent c)) ∧
    pollOnce c = (if (uniqueFilter (tunnelMatches (cleanContent c))).isEmpty
      then fallbackMatches (cleanContent c)
      else uniqueFilter (tunnelMatches (cleanContent c))) :=
  ⟨uniqueFilter_nodup _, List.filter_sublist _, rfl⟩

/-- C9: the dashboard exclusion is a pure substring test: any collected
URL containing the substring is dropped on both paths (first two
conjuncts); a URL whose host is a valid tunnel host but whose text
contains the substring in its path is excluded (third conjunct); and a
dashboard-host URL spelled without the exact lowercase substring is not
excluded (fourth conjunct). -/
theorem dashboard_exclusion_substring :
    (∀ l : List Str, ∀ u ∈ uniqueFilter l, hasDash u = false) ∧
    (∀ l : List Str, ∀ u ∈ l.filter (fun v => !(hasDash v)), hasDash u = false) ∧
    pollOnce dashInPathContent = [] ∧
    pollOnce upperDashContent = [upperDashContent] := by
  refine ⟨fun l u hu => (uniqueFilter_sub l u hu).2, fun l u hu => ?_, by decide, by decide⟩
  have h2 := (List.mem_filter.mp hu).2
  simpa using h2

theorem dashboard_exclusion_substring_witness :
    hasDash "https://t.a.pinggy.link".data = false :=
  dashboard_exclusion_substring.1 ["https://t.a.pinggy.link".data]
    "https://t.a.pinggy.link".data (by decide)

end Tunnel
